import Mathlib

/-!
Verification of the PyCLI command-line shell framework (src/pycli_38.py)
against its natural-language specification.

Python strings are embedded as `List Char` (code-point lists), so that
Python's `str.split`, `str.lower`, `str.replace` and lexicographic string
comparison can be modelled and reasoned about structurally.  Machine-level
details that no claim touches (float/complex numeric values) are abstracted:
a successfully coerced float/complex is represented by the accepted token.
-/

namespace PyCLI

/-- Python strings, embedded as lists of code points. -/
abbrev Str := List Char

/-- Coerce a Lean string literal to the embedding. -/
def str (s : String) : Str := s.data

/-- Embedding of Python `str.lower` for one character (ASCII range; the
source only ever lowers command names and input lines, and the claims only
concern ASCII case). -/
def lowerChar (c : Char) : Char :=
  if 'A' ≤ c ∧ c ≤ 'Z' then Char.ofNat (c.toNat + 32) else c

/-- Embedding of Python `str.lower` (ASCII model). -/
def pyLower (s : Str) : Str := s.map lowerChar

/-- Embedding of `name.replace(" ", "_").lower()` from `CLI.command`
(src line 120). -/
def normalizeName (s : Str) : Str :=
  pyLower (s.map (fun c => if c = ' ' then '_' else c))

/-- Embedding of Python `s.split(" ")` (split on every single space,
keeping empty pieces; `"".split(" ") == [""]`). -/
def splitSp : Str → List Str
  | [] => [[]]
  | c :: rest =>
    if c = ' ' then [] :: splitSp rest
    else
      match splitSp rest with
      | t :: ts => (c :: t) :: ts
      | [] => [[c]]

/-- Python lexicographic string comparison (`<` on code points). -/
def strLt : Str → Str → Bool
  | [], [] => false
  | [], _ :: _ => true
  | _ :: _, [] => false
  | a :: as, b :: bs =>
    if a < b then true
    else if b < a then false
    else strLt as bs

/-- Non-strict comparison used to characterise the output of Python's
stable `sorted`. -/
def strLe (a b : Str) : Bool := !(strLt b a)

theorem strLt_irrefl : ∀ a : Str, strLt a a = false := by
  intro a
  induction a with
  | nil => rfl
  | cons c cs ih => simp [strLt, ih]

theorem strLt_asymm : ∀ a b : Str, strLt a b = true → strLt b a = false := by
  intro a
  induction a with
  | nil =>
    intro b _
    cases b with
    | nil => rfl
    | cons c cs => rfl
  | cons c cs ih =>
    intro b hab
    cases b with
    | nil => exact absurd hab (by simp [strLt])
    | cons d ds =>
      simp only [strLt] at hab ⊢
      rcases lt_trichotomy c d with h | h | h
      · simp [h, not_lt.mpr (le_of_lt h)]
      · subst h
        simp only [lt_irrefl, if_false] at hab ⊢
        exact ih ds hab
      · simp [h, not_lt.mpr (le_of_lt h)] at hab

theorem strLt_trans :
    ∀ a b c : Str, strLt a b = true → strLt b c = true → strLt a c = true := by
  intro a
  induction a with
  | nil =>
    intro b c hab hbc
    cases b with
    | nil => simp [strLt] at hab
    | cons d ds =>
      cases c with
      | nil => simp [strLt] at hbc
      | cons e es => simp [strLt]
  | cons x xs ih =>
    intro b c hab hbc
    cases b with
    | nil => simp [strLt] at hab
    | cons y ys =>
      cases c with
      | nil => simp [strLt] at hbc
      | cons z zs =>
        simp only [strLt] at hab hbc ⊢
        rcases lt_trichotomy x y with hxy | hxy | hxy
        · rcases lt_trichotomy y z with hyz | hyz | hyz
          · simp [lt_trans hxy hyz, not_lt.mpr (le_of_lt (lt_trans hxy hyz))]
          · subst hyz
            simp [hxy, not_lt.mpr (le_of_lt hxy)]
          · simp [hyz, not_lt.mpr (le_of_lt hyz)] at hbc
        · subst hxy
          rcases lt_trichotomy x z with hxz | hxz | hxz
          · simp [hxz, not_lt.mpr (le_of_lt hxz)]
          · subst hxz
            simp only [lt_irrefl, if_false] at hab hbc ⊢
            exact ih ys zs hab hbc
          · simp [hxz, not_lt.mpr (le_of_lt hxz)] at hbc
        · simp [hxy, not_lt.mpr (le_of_lt hxy)] at hab

theorem strLt_total_eq :
    ∀ a b : Str, strLt a b = false → strLt b a = false → a = b := by
  intro a
  induction a with
  | nil =>
    intro b hab _
    cases b with
    | nil => rfl
    | cons c cs => simp [strLt] at hab
  | cons x xs ih =>
    intro b hab hba
    cases b with
    | nil => simp [strLt] at hba
    | cons y ys =>
      simp only [strLt] at hab hba
      rcases lt_trichotomy x y with h | h | h
      · simp [h] at hab
      · subst h
        simp only [lt_irrefl, if_false] at hab hba
        rw [ih ys hab hba]
      · simp [h] at hba

theorem strLe_total : ∀ a b : Str, strLe a b = true ∨ strLe b a = true := by
  intro a b
  by_cases h : strLt b a = true
  · right
    simp [strLe, strLt_asymm b a h]
  · left
    simp [strLe, eq_false_of_ne_true h]

theorem strLe_trans :
    ∀ a b c : Str, strLe a b = true → strLe b c = true → strLe a c = true := by
  intro a b c hab hbc
  simp only [strLe, Bool.not_eq_true'] at hab hbc ⊢
  by_contra h
  replace h : strLt c a = true := by
    cases hca : strLt c a with
    | false => exact absurd hca h
    | true => rfl
  cases hbc2 : strLt b c with
  | true =>
    have : strLt b a = true := strLt_trans b c a hbc2 h
    rw [hab] at this
    exact Bool.false_ne_true this
  | false =>
    have hbceq : b = c := strLt_total_eq b c hbc2 hbc
    subst hbceq
    rw [hab] at h
    exact Bool.false_ne_true h

/-- A registry entry, mirroring the dict built by `CLI.command`
(src lines 134-151): keys `name`, `doc`, `function`, `args`, `types`,
`alias`.  The handler callable is abstracted as an identifier `fn`;
its behaviour is supplied separately to the dispatch loop. -/
structure Cmd where
  name : Str
  doc : Option Str
  args : List Str
  types : List Str
  aliases : List Str
  fn : Nat
deriving DecidableEq, Repr

/-- The registration-time error `AliasAlreadyUsing` (src lines 132, 294),
carrying the name of the already-registered command and the clashing alias,
as in the source's message `[name] Alias "i" is already used.`. -/
inductive RegErr where
  | aliasUsed (cmdName : Str) (al : Str)
deriving DecidableEq, Repr

/-- The alias-conflict scan of `CLI.command` for one existing entry
(src lines 129-132): `for i in alias: for j in value["alias"]: if i == j`,
returning the first new alias that is already used by `v`. -/
def conflictAlias (newAlias : List Str) (v : Cmd) : Option Str :=
  newAlias.find? (fun i => v.aliases.contains i)

/-- One pass of the `for nmb, value in enumerate(self.__cmd)` loop of
`CLI.command` (src lines 128-142).  For each entry in order: first the
alias-conflict scan (raising stops the loop, leaving the remaining entries
untouched but keeping every in-place replacement already made), then the
in-place replacement `self.__cmd[nmb] = {...}` when the names match.
Returns (resulting list, whether a name match occurred, error if raised). -/
def regLoop (ne : Cmd) : List Cmd → List Cmd × Bool × Option RegErr
  | [] => ([], false, none)
  | v :: rest =>
    match conflictAlias ne.aliases v with
    | some a => (v :: rest, false, some (RegErr.aliasUsed v.name a))
    | none =>
      match regLoop ne rest with
      | (rest2, ex, err) =>
        if v.name = ne.name then (ne :: rest2, true, err)
        else (v :: rest2, ex, err)

/-- Embedding of a call to the decorator produced by `CLI.command`
(src lines 116-155): normalize the name, run the scan/replace loop over the
registry, and append the new entry when no name matched (`if not exist`,
src line 143) — the append is skipped when the loop raised.  Returns the
resulting registry (the final state of `self.__cmd`, mutated in place even
on error) together with the raised error, if any. -/
def pyRegister (cmds : List Cmd) (rawName : Str) (doc : Option Str)
    (aliases : List Str) (fid : Nat) (args types : List Str) :
    List Cmd × Option RegErr :=
  let ne : Cmd :=
    { name := normalizeName rawName, doc := doc, args := args,
      types := types, aliases := aliases, fn := fid }
  match regLoop ne cmds with
  | (cmds2, _, some e) => (cmds2, some e)
  | (cmds2, ex, none) => (if ex then cmds2 else cmds2 ++ [ne], none)

/-- Coerced argument values handed to a handler.  Numeric float/complex
values are abstracted as the token that was accepted (no claim inspects
them); `vbytes`/`vbytearray` exist for completeness but are never produced,
because Python `bytes(s)` / `bytearray(s)` on a `str` without an encoding
always raises `TypeError`. -/
inductive Val where
  | vint (i : Int)
  | vfloat (tok : Str)
  | vcomplex (tok : Str)
  | vbool (b : Bool)
  | vbytes (tok : Str)
  | vbytearray (tok : Str)
  | vstr (s : Str)
deriving DecidableEq, Repr

def isDigitChar (c : Char) : Bool := '0' ≤ c && c ≤ '9'

def isWsChar (c : Char) : Bool :=
  c = ' ' || c = '\t' || c = '\n' || c = '\x0b' || c = '\x0c' || c = '\r'

/-- Strip leading and trailing whitespace, as `int()`/`float()` do. -/
def trimWs (l : Str) : Str :=
  ((l.dropWhile isWsChar).reverse.dropWhile isWsChar).reverse

def digitsToNatAux : Str → Nat → Option Nat
  | [], acc => some acc
  | c :: rest, acc =>
    if isDigitChar c then digitsToNatAux rest (10 * acc + (c.toNat - 48))
    else none

def digitsToNat : Str → Option Nat
  | [] => none
  | c :: rest => digitsToNatAux (c :: rest) 0

/-- Embedding of Python `int(s)` on a string: optional surrounding
whitespace, optional sign, a non-empty run of decimal digits.
(Python additionally accepts underscore digit separators and non-ASCII
decimal digits; no claim involves such tokens.) -/
def pyInt (l : Str) : Option Int :=
  match trimWs l with
  | [] => none
  | c :: rest =>
    if c = '+' then (digitsToNat rest).map Int.ofNat
    else if c = '-' then (digitsToNat rest).map (fun n => -(n : Int))
    else (digitsToNat (c :: rest)).map Int.ofNat

def spanDigits (l : Str) : Str × Str :=
  (l.takeWhile isDigitChar, l.dropWhile isDigitChar)

/-- Optional exponent part of a float literal: empty, or `e`/`E`,
optional sign, non-empty digits. -/
def expOk (l : Str) : Bool :=
  match l with
  | [] => true
  | c :: rest =>
    (c = 'e' || c = 'E') &&
      (let rest2 :=
        match rest with
        | s :: r2 => if s = '+' || s = '-' then r2 else rest
        | [] => rest
       let p := spanDigits rest2
       !p.1.isEmpty && p.2.isEmpty)

/-- Unsigned mantissa with optional exponent: `digits [. digits]` or
`. digits`, then an optional exponent. -/
def mantExpOk (l : Str) : Bool :=
  match spanDigits l with
  | (d1, '.' :: r2) =>
    match spanDigits r2 with
    | (d2, r3) => (!d1.isEmpty || !d2.isEmpty) && expOk r3
  | (d1, r1) => !d1.isEmpty && expOk r1

def dropSign (l : Str) : Str :=
  match l with
  | c :: r => if c = '+' || c = '-' then r else l
  | [] => l

/-- Embedding of the success condition of Python `float(s)`: optional
whitespace and sign, then a decimal mantissa/exponent or `inf`, `infinity`,
`nan` (case-insensitive).  No claim exercises float coercion; the accepted
value is abstracted as the token. -/
def pyFloatOk (l : Str) : Bool :=
  let t := dropSign (trimWs l)
  mantExpOk t || pyLower t = str "inf" || pyLower t = str "infinity" ||
    pyLower t = str "nan"

/-- Embedding (approximate) of the success condition of Python
`complex(s)`: a float-like numeral, optionally suffixed with `j`/`J`.
(Python also accepts sums such as `1+2j`; no claim exercises complex
coercion at all.) -/
def pyComplexOk (l : Str) : Bool :=
  match (trimWs l).reverse with
  | c :: r => if c = 'j' || c = 'J' then mantExpOk (dropSign r.reverse)
              else mantExpOk (dropSign (trimWs l))
  | [] => false

/-- One attempt of the conversion body in `CLI.run` (src lines 188-196).
The source iterates `for type in i["types"][nmb].split(" | ")`, but every
branch inside the loop tests the UNSPLIT string `i["types"][nmb]`, never
the loop variable, so each iteration performs exactly this same attempt;
one evaluation captures the whole inner loop.  `bytes(arg)`/`bytearray(arg)`
on a `str` without an encoding always raise `TypeError` in Python, so those
branches never succeed.  `bool(arg)` never raises and is `True` exactly for
a non-empty token. -/
def convertOnce (declared arg : Str) : Option Val :=
  if declared = str "int" then (pyInt arg).map Val.vint
  else if declared = str "float" then
    if pyFloatOk arg then some (Val.vfloat arg) else none
  else if declared = str "complex" then
    if pyComplexOk arg then some (Val.vcomplex arg) else none
  else if declared = str "bool" then some (Val.vbool (!arg.isEmpty))
  else if declared = str "bytes" then none
  else if declared = str "bytearray" then none
  else some (Val.vstr arg)

/-- Exceptions that the body of one dispatch-loop iteration can raise
(src lines 179-207).  `nameErrorUndefined` is the `NameError` raised by
`if error:` (src line 200) when the run-local variable `error` has never
been assigned; `typeErrorUnhashable` is the `TypeError` raised while
evaluating the broken message `f"[{i[args][nmb]}]..."` (a list used as a
dict key) if `error` were ever `True`; `handlerExc` is any `Exception`
raised by a host handler; `indexError` covers `i["types"][nmb]` on a
malformed entry with fewer types than args. -/
inductive PyExc where
  | keyboardInterrupt
  | nameErrorUndefined
  | typeErrorUnhashable
  | indexError
  | handlerExc (msg : Str)
deriving DecidableEq, Repr

/-- The token-coercion loop of `CLI.run` (src lines 187-200), threading the
run-local variable `error` (`Option Bool`: `none` = never assigned).  On a
successful conversion the value is appended and `error := False`; when
every attempt fails, `if error:` either raises `NameError` (`error`
unassigned), raises the broken-message `TypeError` (`error = True`, never
actually reachable), or — since `error` can only ever hold `False` — falls
through, silently skipping the token. -/
def coerceTokens (tys : List Str) : List Str → Nat → Option Bool →
    Option Bool × Except PyExc (List Val)
  | [], _, ef => (ef, Except.ok [])
  | arg :: rest, nmb, ef =>
    match tys[nmb]? with
    | none => (ef, Except.error PyExc.indexError)
    | some ty =>
      match convertOnce ty arg with
      | some v =>
        match coerceTokens tys rest (nmb + 1) (some false) with
        | (ef2, Except.ok vs) => (ef2, Except.ok (v :: vs))
        | (ef2, Except.error e) => (ef2, Except.error e)
      | none =>
        match ef with
        | none => (ef, Except.error PyExc.nameErrorUndefined)
        | some true => (ef, Except.error PyExc.typeErrorUnhashable)
        | some false => coerceTokens tys rest (nmb + 1) (some false)

/-- Behaviour of the host-supplied handler callables, indexed by the
abstract identifier stored in `Cmd.fn`; a handler either returns or raises
an `Exception` with a message. -/
def Handlers : Type := Nat → List Val → Except Str Unit

/-- Constructor-time configuration of the shell that the dispatch loop
reads (`self.not_exist`, src lines 38, 66, 203). -/
structure Config where
  notExist : Str
deriving DecidableEq, Repr

/-- Observable actions of one loop iteration: an `echo` to the output sink,
a handler invocation, or the `print(e)` of the catch-all handler
(src line 206). -/
inductive Effect where
  | echo (msg : Str)
  | call (fid : Nat) (args : List Val)
  | printExc (e : PyExc)
deriving DecidableEq, Repr

/-- `i["name"] == entry.split(" ")[0] or entry.split(" ")[0] in i["alias"]`
(src line 184). -/
def cmdMatches (c : Cmd) (tok : Str) : Bool :=
  c.name = tok || c.aliases.contains tok

/-- The `for i in self.__cmd: if ...: break` lookup of `CLI.run`
(src lines 183-184): the first matching entry wins. -/
def findCmd (cmds : List Cmd) (tok : Str) : Option Cmd :=
  cmds.find? (fun c => cmdMatches c tok)

/-- Coercion and invocation once an entry matched (src lines 185-201):
slice `entry.split(" ")[1:len(i["args"])+1]`, coerce, then call the
handler.  Errors propagate to the loop's `except` clauses. -/
def dispatchFound (H : Handlers) (c : Cmd) (ef : Option Bool)
    (tailToks : List Str) : Option Bool × Except PyExc (List Effect) :=
  match coerceTokens c.types (tailToks.take c.args.length) 0 ef with
  | (ef2, Except.error e) => (ef2, Except.error e)
  | (ef2, Except.ok vals) =>
    match H c.fn vals with
    | Except.ok _ => (ef2, Except.ok [Effect.call c.fn vals])
    | Except.error m => (ef2, Except.error (PyExc.handlerExc m))

/-- Processing of one (already lowercased) input line inside the `try`
of `CLI.run` (src lines 181-203): split, look up by name or alias, coerce
and invoke on a match, `echo(self.not_exist)` otherwise.  Returns the
final value of the run-local `error` variable and either the effects or
the exception that reached the `except` clauses. -/
def processLine (H : Handlers) (cfg : Config) (cmds : List Cmd)
    (ef : Option Bool) (entry : Str) :
    Option Bool × Except PyExc (List Effect) :=
  match findCmd cmds ((splitSp entry).headD []) with
  | none => (ef, Except.ok [Effect.echo cfg.notExist])
  | some c => dispatchFound H c ef ((splitSp entry).drop 1)

/-- The comparison Python `sorted(key=lambda x: x["name"])` sorts by:
`x` precedes `y` when `x.name` is lexicographically at most `y.name`. -/
def cmdLe (x y : Cmd) : Prop := strLe x.name y.name = true

instance : DecidableRel cmdLe := fun x y =>
  inferInstanceAs (Decidable (strLe x.name y.name = true))

instance : IsTotal Cmd cmdLe := ⟨fun a b => strLe_total a.name b.name⟩

instance : IsTrans Cmd cmdLe :=
  ⟨fun a b c hab hbc => strLe_trans a.name b.name c.name hab hbc⟩

/-- `sorted(self.__cmd, key=lambda x: x["name"])` (src line 180):
Python's stable sort by the lexicographic order on names (insertion sort
with non-strict comparison is stable, like Python's sort). -/
def sortByName (l : List Cmd) : List Cmd := List.insertionSort cmdLe l

/-- Mutable state of a running shell that the loop body touches: the
registry `self.__cmd` and the run-local `error` variable. -/
structure CLIState where
  cmd : List Cmd
  ef : Option Bool
deriving DecidableEq, Repr

/-- Result of one iteration of the `while True` loop of `CLI.run`:
either the loop continues with a new state (possibly after printing a
caught exception), or an exception propagates out of the loop.  The
second outcome is never produced — see the claim about loop survival. -/
inductive LoopOutcome where
  | next (st : CLIState) (out : List Effect)
  | fatal (e : PyExc)
deriving DecidableEq, Repr

/-- One full iteration of the dispatch loop (src lines 179-207): re-sort
the registry, read a line (`input = none` models a `KeyboardInterrupt`
during the read), lowercase it, process it, and apply the two `except`
clauses: `except KeyboardInterrupt: continue` and
`except Exception as e: print(e); continue`. -/
def iterOnce (H : Handlers) (cfg : Config) (st : CLIState)
    (input : Option Str) : LoopOutcome :=
  match input with
  | none => LoopOutcome.next ⟨sortByName st.cmd, st.ef⟩ []
  | some line =>
    match processLine H cfg (sortByName st.cmd) st.ef (pyLower line) with
    | (ef2, Except.ok effs) => LoopOutcome.next ⟨sortByName st.cmd, ef2⟩ effs
    | (ef2, Except.error PyExc.keyboardInterrupt) =>
      LoopOutcome.next ⟨sortByName st.cmd, ef2⟩ []
    | (ef2, Except.error e) =>
      LoopOutcome.next ⟨sortByName st.cmd, ef2⟩ [Effect.printExc e]

/-- One line of `CLI.help` (src line 172):
`"Alias    " + ", ".join(alias) + " -> " + name + " " + " ".join(args) + doc`
with `doc` the empty string when the entry has no docstring. -/
def renderLine (c : Cmd) : Str :=
  str "Alias    " ++ List.intercalate (str ", ") c.aliases ++ str " -> " ++
    c.name ++ str " " ++ List.intercalate (str " ") c.args ++ c.doc.getD []

/-- The accumulation `text += ... + "\n"` of `CLI.help` (src lines 167-172). -/
def helpFold : List Cmd → Str
  | [] => []
  | c :: rest => renderLine c ++ '\n' :: helpFold rest

/-- The text echoed by `CLI.help`: the accumulated block with the final
newline stripped (`text[:-1]`, src line 173). -/
def helpText (cmds : List Cmd) : Str := (helpFold cmds).dropLast

/-- Newline-joining used to state that the help block is exactly the
rendered lines, one per command. -/
def joinNl : List Str → Str
  | [] => []
  | [x] => x
  | x :: y :: rest => x ++ '\n' :: joinNl (y :: rest)

/-- `a` occurs contiguously inside `b`. -/
def infixOf (a b : Str) : Prop := ∃ p q, b = p ++ a ++ q

/-- ASCII uppercase letter. -/
def isUpperAscii (c : Char) : Bool := decide ('A' ≤ c) && decide (c ≤ 'Z')

theorem toNat_lowerChar (c : Char) (h : 'A' ≤ c ∧ c ≤ 'Z') :
    (lowerChar c).toNat = c.toNat + 32 := by
  have hz : c.toNat ≤ 90 := by
    have := Char.le_def.mp h.2
    simpa using this
  have hv : Nat.isValidChar (c.toNat + 32) := Or.inl (by omega)
  rw [lowerChar, if_pos h]
  unfold Char.ofNat
  rw [dif_pos hv]
  rfl

theorem toNat_lowerChar_bounds (c : Char) (h : 'A' ≤ c ∧ c ≤ 'Z') :
    97 ≤ (lowerChar c).toNat ∧ (lowerChar c).toNat ≤ 122 := by
  have ha : 65 ≤ c.toNat := by
    have := Char.le_def.mp h.1
    simpa using this
  have hz : c.toNat ≤ 90 := by
    have := Char.le_def.mp h.2
    simpa using this
  rw [toNat_lowerChar c h]
  omega

theorem isUpperAscii_lowerChar (c : Char) : isUpperAscii (lowerChar c) = false := by
  by_cases h : 'A' ≤ c ∧ c ≤ 'Z'
  · have hb := toNat_lowerChar_bounds c h
    have hnotle : ¬ (lowerChar c ≤ 'Z') := by
      rw [Char.le_def]
      show ¬ (lowerChar c).toNat ≤ ('Z').toNat
      rw [show ('Z').toNat = 90 from rfl]
      omega
    simp [isUpperAscii, hnotle]
  · rw [lowerChar, if_neg h]
    by_cases h1 : 'A' ≤ c
    · have h2 : ¬ (c ≤ 'Z') := fun hc => h ⟨h1, hc⟩
      simp [isUpperAscii, h2]
    · simp [isUpperAscii, h1]

theorem not_upper_of_isUpperAscii_false {d : Char} (h : isUpperAscii d = false) :
    ¬ ('A' ≤ d ∧ d ≤ 'Z') := by
  intro hc
  have : isUpperAscii d = true := by simp [isUpperAscii, hc.1, hc.2]
  rw [h] at this
  exact Bool.false_ne_true this

theorem lowerChar_ne_space (c : Char) (h : c ≠ ' ') : lowerChar c ≠ ' ' := by
  by_cases hu : 'A' ≤ c ∧ c ≤ 'Z'
  · intro he
    have h1 := toNat_lowerChar_bounds c hu
    rw [he] at h1
    have h32 : (' ').toNat = 32 := rfl
    omega
  · rw [lowerChar, if_neg hu]
    exact h

theorem lowerChar_idem (c : Char) : lowerChar (lowerChar c) = lowerChar c := by
  have h := not_upper_of_isUpperAscii_false (isUpperAscii_lowerChar c)
  rw [show lowerChar (lowerChar c) =
        if 'A' ≤ lowerChar c ∧ lowerChar c ≤ 'Z'
        then Char.ofNat ((lowerChar c).toNat + 32) else lowerChar c from rfl,
      if_neg h]

theorem pyLower_no_upper (s : Str) :
    ∀ ch ∈ pyLower s, isUpperAscii ch = false := by
  intro ch hch
  rcases List.mem_map.mp hch with ⟨c, _, rfl⟩
  exact isUpperAscii_lowerChar c

theorem pyLower_idem (s : Str) : pyLower (pyLower s) = pyLower s := by
  simp only [pyLower, List.map_map]
  exact List.map_congr_left (fun c _ => lowerChar_idem c)

theorem normalizeName_no_space (s : Str) :
    ∀ ch ∈ normalizeName s, ch ≠ ' ' := by
  intro ch hch
  simp only [normalizeName, pyLower, List.map_map] at hch
  rcases List.mem_map.mp hch with ⟨c, _, rfl⟩
  apply lowerChar_ne_space
  by_cases hc : c = ' '
  · simp [Function.comp, hc]
  · simp [Function.comp, hc]

theorem pyLower_normalizeName (s : Str) :
    pyLower (normalizeName s) = normalizeName s :=
  pyLower_idem _

theorem splitSp_ne_nil (l : Str) : splitSp l ≠ [] := by
  cases l with
  | nil => simp [splitSp]
  | cons c rest =>
    simp only [splitSp]
    split
    · simp
    · split
      · simp
      · simp

theorem mem_splitSp_subset (l : Str) :
    ∀ t ∈ splitSp l, ∀ ch ∈ t, ch ∈ l := by
  induction l with
  | nil =>
    intro t ht ch hch
    simp [splitSp] at ht
    subst ht
    cases hch
  | cons c rest ih =>
    intro t ht ch hch
    simp only [splitSp] at ht
    by_cases hc : c = ' '
    · rw [if_pos hc] at ht
      rcases List.mem_cons.mp ht with rfl | ht2
      · cases hch
      · exact List.mem_cons_of_mem c (ih t ht2 ch hch)
    · rw [if_neg hc] at ht
      rcases hsp : splitSp rest with _ | ⟨t0, ts⟩
      · exact absurd hsp (splitSp_ne_nil rest)
      · rw [hsp] at ht
        rcases List.mem_cons.mp ht with rfl | ht2
        · rcases List.mem_cons.mp hch with rfl | hch2
          · exact List.mem_cons_self ch rest
          · have ht0 : t0 ∈ splitSp rest := by
              rw [hsp]
              exact List.mem_cons_self t0 ts
            exact List.mem_cons_of_mem c (ih t0 ht0 ch hch2)
        · have htm : t ∈ splitSp rest := by
            rw [hsp]
            exact List.mem_cons_of_mem t0 ht2
          exact List.mem_cons_of_mem c (ih t htm ch hch)

theorem splitSp_no_space (l : Str) (h : ∀ ch ∈ l, ch ≠ ' ') :
    splitSp l = [l] := by
  induction l with
  | nil => rfl
  | cons c rest ih =>
    have hc : c ≠ ' ' := h c (List.mem_cons_self c rest)
    have hr : splitSp rest = [rest] :=
      ih (fun ch hch => h ch (List.mem_cons_of_mem c hch))
    simp only [splitSp]
    rw [if_neg hc, hr]

theorem headD_mem_splitSp (l : Str) : (splitSp l).headD [] ∈ splitSp l := by
  rcases h : splitSp l with _ | ⟨t, ts⟩
  · exact absurd h (splitSp_ne_nil l)
  · simp

theorem conflictAlias_eq_none {newAlias : List Str} {v : Cmd}
    (h : ∀ a ∈ newAlias, a ∉ v.aliases) :
    conflictAlias newAlias v = none := by
  apply List.find?_eq_none.mpr
  intro a ha
  simp only [Bool.not_eq_true]
  rw [← Bool.not_eq_true, List.elem_iff]
  exact h a ha

theorem conflictAlias_none_no_shared {newAlias : List Str} {v : Cmd}
    (h : conflictAlias newAlias v = none) :
    ∀ a ∈ newAlias, a ∉ v.aliases := by
  intro a ha hav
  have := List.find?_eq_none.mp h a ha
  rw [List.elem_iff] at this
  exact this hav

theorem regLoop_conflict (ne : Cmd) :
    ∀ cmds : List Cmd, (∃ v ∈ cmds, ∃ a ∈ ne.aliases, a ∈ v.aliases) →
      (regLoop ne cmds).2.2.isSome = true ∧
      (regLoop ne cmds).1.length = cmds.length ∧
      (∀ v ∈ (regLoop ne cmds).1, v ∈ cmds ∨ v = ne) ∧
      ((∀ v ∈ cmds, v.name ≠ ne.name) → (regLoop ne cmds).1 = cmds) := by
  intro cmds
  induction cmds with
  | nil =>
    rintro ⟨v, hv, _⟩
    cases hv
  | cons w rest ih =>
    rintro ⟨v, hv, a, ha, hav⟩
    rcases hcf : conflictAlias ne.aliases w with _ | a2
    · have hvrest : v ∈ rest := by
        rcases List.mem_cons.mp hv with rfl | h2
        · exact absurd hav (conflictAlias_none_no_shared hcf a ha)
        · exact h2
      have ihr := ih ⟨v, hvrest, a, ha, hav⟩
      rcases hr : regLoop ne rest with ⟨rest2, ex, err⟩
      rw [hr] at ihr
      by_cases hn : w.name = ne.name
      · refine ⟨?_, ?_, ?_, ?_⟩
        · simpa [regLoop, hcf, hr, hn] using ihr.1
        · simpa [regLoop, hcf, hr, hn] using ihr.2.1
        · intro u hu
          rw [show (regLoop ne (w :: rest)).1 = ne :: rest2 by
            simp [regLoop, hcf, hr, hn]] at hu
          rcases List.mem_cons.mp hu with rfl | hu2
          · exact Or.inr rfl
          · rcases ihr.2.2.1 u hu2 with h2 | h2
            · exact Or.inl (List.mem_cons_of_mem w h2)
            · exact Or.inr h2
        · intro hnone
          exact absurd hn (hnone w (List.mem_cons_self w rest))
      · refine ⟨?_, ?_, ?_, ?_⟩
        · simpa [regLoop, hcf, hr, hn] using ihr.1
        · simpa [regLoop, hcf, hr, hn] using ihr.2.1
        · intro u hu
          rw [show (regLoop ne (w :: rest)).1 = w :: rest2 by
            simp [regLoop, hcf, hr, hn]] at hu
          rcases List.mem_cons.mp hu with rfl | hu2
          · exact Or.inl (List.mem_cons_self u rest)
          · rcases ihr.2.2.1 u hu2 with h2 | h2
            · exact Or.inl (List.mem_cons_of_mem w h2)
            · exact Or.inr h2
        · intro hnone
          have : rest2 = rest :=
            ihr.2.2.2 (fun u hu => hnone u (List.mem_cons_of_mem w hu))
          simp [regLoop, hcf, hr, hn, this]
    · refine ⟨?_, ?_, ?_, ?_⟩
      · simp [regLoop, hcf]
      · simp [regLoop, hcf]
      · intro u hu
        rw [show (regLoop ne (w :: rest)).1 = w :: rest by
          simp [regLoop, hcf]] at hu
        exact Or.inl hu
      · intro _
        simp [regLoop, hcf]

theorem regLoop_noConflict (ne : Cmd) :
    ∀ cmds : List Cmd, (∀ v ∈ cmds, ∀ a ∈ ne.aliases, a ∉ v.aliases) →
      regLoop ne cmds =
        (cmds.map (fun v => if v.name = ne.name then ne else v),
         cmds.any (fun v => decide (v.name = ne.name)), none) := by
  intro cmds
  induction cmds with
  | nil => intro _; rfl
  | cons w rest ih =>
    intro h
    have hcf : conflictAlias ne.aliases w = none :=
      conflictAlias_eq_none (fun a ha => h w (List.mem_cons_self w rest) a ha)
    have hr := ih (fun v hv => h v (List.mem_cons_of_mem w hv))
    by_cases hn : w.name = ne.name
    · simp [regLoop, hcf, hr, hn]
    · simp [regLoop, hcf, hr, hn]

/-- Handlers that simply return, for concrete dispatch scenarios. -/
def okHandlers : Handlers := fun _ _ => Except.ok ()

/-- A shell configuration with the default not-found message. -/
def cfgDemo : Config :=
  ⟨str "This command does not exist.\nDo help to get the list of existing commands."⟩

def cmdA : Cmd := ⟨str "a", none, [], [], [], 0⟩

def cmdB : Cmd := ⟨str "b", none, [], [], [str "x"], 1⟩

/-- Claim C1, counterexample: registering name `a` with alias `x` into the
registry `[a (no aliases), b (alias x)]` raises `AliasAlreadyUsing` for the
clash with `b`, yet the registry is NOT left unchanged: the loop had already
overwritten the entry `a` in place before reaching the conflicting entry
`b`. -/
theorem claim_C1_counterexample :
    (∃ v ∈ [cmdA, cmdB], ∃ a ∈ [str "x"], a ∈ v.aliases) ∧
    (pyRegister [cmdA, cmdB] (str "a") none [str "x"] 2 [] []).2 =
      some (RegErr.aliasUsed (str "b") (str "x")) ∧
    (pyRegister [cmdA, cmdB] (str "a") none [str "x"] 2 [] []).1 ≠
      [cmdA, cmdB] := by
  refine ⟨by decide, by decide, by decide⟩

/-- Claim C1 (amended): when the alias set of a registration intersects some
existing command's alias set, the registration fails with `AliasAlreadyUsing`
and no entry is added or removed (the length is unchanged and every entry is
either an original one or an in-place overwrite by the new definition);
moreover, when no existing entry bears the new normalized name — in
particular whenever a same-name overwrite cannot happen — the registry is
left exactly unchanged. -/
theorem claim_C1_alias_conflict_amended :
    ∀ (cmds : List Cmd) (rawName : Str) (doc : Option Str)
      (aliases : List Str) (fid : Nat) (args types : List Str),
      (∃ v ∈ cmds, ∃ a ∈ aliases, a ∈ v.aliases) →
      (pyRegister cmds rawName doc aliases fid args types).2.isSome = true ∧
      (pyRegister cmds rawName doc aliases fid args types).1.length =
        cmds.length ∧
      (∀ v ∈ (pyRegister cmds rawName doc aliases fid args types).1,
         v ∈ cmds ∨ v.name = normalizeName rawName) ∧
      ((∀ v ∈ cmds, v.name ≠ normalizeName rawName) →
         (pyRegister cmds rawName doc aliases fid args types).1 = cmds) := by
  intro cmds rawName doc aliases fid args types hconf
  have hrl := regLoop_conflict
    ⟨normalizeName rawName, doc, args, types, aliases, fid⟩ cmds hconf
  rcases hr : regLoop ⟨normalizeName rawName, doc, args, types, aliases, fid⟩
      cmds with ⟨cmds2, ex, err⟩
  rw [hr] at hrl
  rcases err with _ | e
  · simpa using hrl.1
  · have hpr : pyRegister cmds rawName doc aliases fid args types =
        (cmds2, some e) := by
      simp [pyRegister, hr]
    refine ⟨by simp [hpr], ?_, ?_, ?_⟩
    · rw [hpr]
      exact hrl.2.1
    · intro v hv
      rw [hpr] at hv
      rcases hrl.2.2.1 v hv with h2 | h2
      · exact Or.inl h2
      · exact Or.inr (by rw [h2])
    · intro hnone
      rw [hpr]
      exact hrl.2.2.2 hnone

/-- Witness for the amended claim C1 at the counterexample input. -/
theorem claim_C1_witness :
    (∃ v ∈ [cmdA, cmdB], ∃ a ∈ [str "x"], a ∈ v.aliases) ∧
    ((pyRegister [cmdA, cmdB] (str "a") none [str "x"] 2 [] []).2.isSome =
       true ∧
     (pyRegister [cmdA, cmdB] (str "a") none [str "x"] 2 [] []).1.length =
       [cmdA, cmdB].length ∧
     (∀ v ∈ (pyRegister [cmdA, cmdB] (str "a") none [str "x"] 2 [] []).1,
        v ∈ [cmdA, cmdB] ∨ v.name = normalizeName (str "a")) ∧
     ((∀ v ∈ [cmdA, cmdB], v.name ≠ normalizeName (str "a")) →
        (pyRegister [cmdA, cmdB] (str "a") none [str "x"] 2 [] []).1 =
          [cmdA, cmdB])) :=
  ⟨by decide,
   claim_C1_alias_conflict_amended [cmdA, cmdB] (str "a") none [str "x"] 2
     [] [] (by decide)⟩

/-- Claim C5: with aliases disjoint from every existing command's aliases,
registration succeeds; when some entry already has the normalized name, the
registry becomes the pointwise overwrite at the same positions (size
unchanged); when none has, the new entry is appended (size grows by one). -/
theorem claim_C5_register_or_replace :
    ∀ (cmds : List Cmd) (rawName : Str) (doc : Option Str)
      (aliases : List Str) (fid : Nat) (args types : List Str),
      (∀ v ∈ cmds, ∀ a ∈ aliases, a ∉ v.aliases) →
      (pyRegister cmds rawName doc aliases fid args types).2 = none ∧
      ((∃ v ∈ cmds, v.name = normalizeName rawName) →
         (pyRegister cmds rawName doc aliases fid args types).1 =
           cmds.map (fun v => if v.name = normalizeName rawName then
             ⟨normalizeName rawName, doc, args, types, aliases, fid⟩ else v) ∧
         (pyRegister cmds rawName doc aliases fid args types).1.length =
           cmds.length) ∧
      ((∀ v ∈ cmds, v.name ≠ normalizeName rawName) →
         (pyRegister cmds rawName doc aliases fid args types).1 =
           cmds ++ [⟨normalizeName rawName, doc, args, types, aliases, fid⟩] ∧
         (pyRegister cmds rawName doc aliases fid args types).1.length =
           cmds.length + 1) := by
  intro cmds rawName doc aliases fid args types hdisj
  have hrl := regLoop_noConflict
    ⟨normalizeName rawName, doc, args, types, aliases, fid⟩ cmds hdisj
  refine ⟨by simp [pyRegister, hrl], ?_, ?_⟩
  · rintro ⟨v, hv, hvn⟩
    have hany : cmds.any (fun v => decide (v.name = normalizeName rawName)) =
        true :=
      List.any_eq_true.mpr ⟨v, hv, by simpa using hvn⟩
    constructor
    · simp [pyRegister, hrl, hany]
    · simp [pyRegister, hrl, hany]
  · intro hnone
    have hany : cmds.any (fun v => decide (v.name = normalizeName rawName)) =
        false := by
      rw [← Bool.not_eq_true, List.any_eq_true]
      rintro ⟨v, hv, hvn⟩
      exact hnone v hv (by simpa using hvn)
    have hmap : cmds.map (fun v => if v.name = normalizeName rawName then
        (⟨normalizeName rawName, doc, args, types, aliases, fid⟩ : Cmd)
        else v) = cmds := by
      rw [show cmds.map (fun v => if v.name = normalizeName rawName then
          (⟨normalizeName rawName, doc, args, types, aliases, fid⟩ : Cmd)
          else v) = cmds.map id from
        List.map_congr_left (fun v hv => by simp [hnone v hv])]
      exact List.map_id cmds
    constructor
    · simp [pyRegister, hrl, hany, hmap]
    · simp [pyRegister, hrl, hany, hmap]

/-- Witness for claim C5: registering a second `b` (normalized from `B`)
with a fresh alias replaces the entry in place. -/
theorem claim_C5_witness :
    (∀ v ∈ [cmdB], ∀ a ∈ [str "y"], a ∉ v.aliases) ∧
    ((pyRegister [cmdB] (str "B") none [str "y"] 2 [] []).2 = none ∧
     ((∃ v ∈ [cmdB], v.name = normalizeName (str "B")) →
        (pyRegister [cmdB] (str "B") none [str "y"] 2 [] []).1 =
          [cmdB].map (fun v => if v.name = normalizeName (str "B") then
            ⟨normalizeName (str "B"), none, [], [], [str "y"], 2⟩ else v) ∧
        (pyRegister [cmdB] (str "B") none [str "y"] 2 [] []).1.length =
          [cmdB].length) ∧
     ((∀ v ∈ [cmdB], v.name ≠ normalizeName (str "B")) →
        (pyRegister [cmdB] (str "B") none [str "y"] 2 [] []).1 =
          [cmdB] ++ [⟨normalizeName (str "B"), none, [], [], [str "y"], 2⟩] ∧
        (pyRegister [cmdB] (str "B") none [str "y"] 2 [] []).1.length =
          [cmdB].length + 1)) :=
  ⟨by decide,
   claim_C5_register_or_replace [cmdB] (str "B") none [str "y"] 2 [] []
     (by decide)⟩

def cmdIntFloat : Cmd := ⟨str "f", none, [str "[x]"], [str "int | float"], [], 7⟩

def cmdInt : Cmd := ⟨str "cmdi", none, [str "[x]"], [str "int"], [], 5⟩

/-- Claim C2 (code bug): for the declared type `int | float` and token `3`,
the coercion does NOT try the alternatives left to right — the branch tests
in `CLI.run` (src lines 190-196) compare the undecomposed string
`i["types"][nmb]`, never the loop variable of `split(" | ")`, so the
passthrough `else` branch runs and the handler receives the raw string `3`
rather than the integer 3. -/
theorem claim_C2_alternation_passthrough :
    convertOnce (str "int | float") (str "3") =
      some (Val.vstr (str "3")) ∧
    convertOnce (str "int | float") (str "3") ≠ some (Val.vint 3) ∧
    processLine okHandlers cfgDemo [cmdIntFloat] none (str "f 3") =
      (some false, Except.ok [Effect.call 7 [Val.vstr (str "3")]]) :=
  ⟨by decide, by decide, rfl⟩

/-- Claim C3 (code bug): when every conversion attempt for a token fails, no
`TypeCoercionError` naming the token and the attempted kinds is ever raised.
On the first-ever failing token the `if error:` test (src line 200) raises
`NameError` because the run-local `error` was never assigned; after any
earlier successful conversion (`error == False`), the failing token is
silently dropped and the handler IS invoked — here with no arguments at
all for input `cmdi abc` against declared type `int`. -/
theorem claim_C3_no_coercion_error :
    coerceTokens [str "int"] [str "abc"] 0 none =
      (none, Except.error PyExc.nameErrorUndefined) ∧
    coerceTokens [str "int"] [str "abc"] 0 (some false) =
      (some false, Except.ok []) ∧
    processLine okHandlers cfgDemo [cmdInt] (some false) (str "cmdi abc") =
      (some false, Except.ok [Effect.call 5 []]) :=
  ⟨rfl, rfl, rfl⟩

theorem convertOnce_bool (tok : Str) :
    convertOnce (str "bool") tok = some (Val.vbool (!tok.isEmpty)) := rfl

/-- Claim C4: for declared type `bool`, any non-empty token — including the
literal `false` — coerces successfully to boolean true, because the source
applies Python `bool` to the token string (src line 193). -/
theorem claim_C4_bool_nonempty_is_true :
    ∀ tok : Str, tok ≠ [] →
      convertOnce (str "bool") tok = some (Val.vbool true) := by
  intro tok h
  rw [convertOnce_bool]
  cases tok with
  | nil => exact absurd rfl h
  | cons c rest => rfl

/-- Witness for claim C4 at the token `false`. -/
theorem claim_C4_witness :
    str "false" ≠ [] ∧
    convertOnce (str "bool") (str "false") = some (Val.vbool true) :=
  ⟨by decide, claim_C4_bool_nonempty_is_true (str "false") (by decide)⟩

/-- Claim C6 (code bug): the `bytes` and `bytearray` kinds can never be
produced.  `bytes(arg)` and `bytearray(arg)` applied to a `str` without an
encoding always raise `TypeError` in Python, so for every input token the
conversion attempt fails — no token exists whose coercion succeeds with a
byte-sequence or byte-buffer value. -/
theorem claim_C6_bytes_never_succeed :
    ∀ tok : Str, convertOnce (str "bytes") tok = none ∧
      convertOnce (str "bytearray") tok = none :=
  fun _ => ⟨rfl, rfl⟩

theorem iterOnce_some (H : Handlers) (cfg : Config) (st : CLIState)
    (line : Str) :
    iterOnce H cfg st (some line) =
      match processLine H cfg (sortByName st.cmd) st.ef (pyLower line) with
      | (ef2, Except.ok effs) =>
          LoopOutcome.next ⟨sortByName st.cmd, ef2⟩ effs
      | (ef2, Except.error PyExc.keyboardInterrupt) =>
          LoopOutcome.next ⟨sortByName st.cmd, ef2⟩ []
      | (ef2, Except.error e) =>
          LoopOutcome.next ⟨sortByName st.cmd, ef2⟩ [Effect.printExc e] := rfl

theorem mem_sortByName {c : Cmd} {l : List Cmd} :
    c ∈ sortByName l ↔ c ∈ l := by
  unfold sortByName
  exact List.mem_insertionSort _

/-- Claim C8: when the lowercased first token of the line matches no
registered command's name and no registered command's aliases, the loop
iteration emits exactly the configured `not_exist` message, performs no
handler call, and continues (nothing is raised out of the loop). -/
theorem claim_C8_not_found_message :
    ∀ (H : Handlers) (cfg : Config) (st : CLIState) (line : Str),
      (∀ c ∈ st.cmd,
        cmdMatches c ((splitSp (pyLower line)).headD []) = false) →
      iterOnce H cfg st (some line) =
        LoopOutcome.next ⟨sortByName st.cmd, st.ef⟩
          [Effect.echo cfg.notExist] := by
  intro H cfg st line h
  have hfind : findCmd (sortByName st.cmd)
      ((splitSp (pyLower line)).headD []) = none := by
    apply List.find?_eq_none.mpr
    intro c hc hcontra
    rw [h c (mem_sortByName.mp hc)] at hcontra
    exact Bool.false_ne_true hcontra
  have hpl : processLine H cfg (sortByName st.cmd) st.ef (pyLower line) =
      (st.ef, Except.ok [Effect.echo cfg.notExist]) := by
    unfold processLine
    rw [hfind]
  simp only [iterOnce]
  rw [hpl]

/-- Witness for claim C8: the input `frobnicate` against a registry holding
only the command `a`. -/
theorem claim_C8_witness :
    iterOnce okHandlers cfgDemo ⟨[cmdA], none⟩ (some (str "frobnicate")) =
      LoopOutcome.next ⟨sortByName [cmdA], none⟩
        [Effect.echo cfgDemo.notExist] :=
  claim_C8_not_found_message okHandlers cfgDemo ⟨[cmdA], none⟩
    (str "frobnicate") (by decide)

/-- Claim C9: every exception the body of a loop iteration can raise —
during lookup, coercion, or handler invocation — is caught by the two
`except` clauses of `CLI.run`, so every iteration produces a `next` outcome
(the loop never terminates or propagates because of a command error), and a
`KeyboardInterrupt` during the read simply restarts the loop with no
output. -/
theorem claim_C9_loop_survives :
    ∀ (H : Handlers) (cfg : Config) (st : CLIState) (input : Option Str),
      (∃ st2 out, iterOnce H cfg st input = LoopOutcome.next st2 out) ∧
      iterOnce H cfg st none =
        LoopOutcome.next ⟨sortByName st.cmd, st.ef⟩ [] := by
  intro H cfg st input
  refine ⟨?_, rfl⟩
  cases input with
  | none => exact ⟨_, _, rfl⟩
  | some line =>
    rcases hp : processLine H cfg (sortByName st.cmd) st.ef (pyLower line)
      with ⟨ef2, res⟩
    cases res with
    | ok effs =>
      refine ⟨⟨sortByName st.cmd, ef2⟩, effs, ?_⟩
      rw [iterOnce_some, hp]
    | error e =>
      cases e with
      | keyboardInterrupt =>
        refine ⟨⟨sortByName st.cmd, ef2⟩, [], ?_⟩
        rw [iterOnce_some, hp]
      | nameErrorUndefined =>
        refine ⟨⟨sortByName st.cmd, ef2⟩,
          [Effect.printExc PyExc.nameErrorUndefined], ?_⟩
        rw [iterOnce_some, hp]
      | typeErrorUnhashable =>
        refine ⟨⟨sortByName st.cmd, ef2⟩,
          [Effect.printExc PyExc.typeErrorUnhashable], ?_⟩
        rw [iterOnce_some, hp]
      | indexError =>
        refine ⟨⟨sortByName st.cmd, ef2⟩,
          [Effect.printExc PyExc.indexError], ?_⟩
        rw [iterOnce_some, hp]
      | handlerExc m =>
        refine ⟨⟨sortByName st.cmd, ef2⟩,
          [Effect.printExc (PyExc.handlerExc m)], ?_⟩
        rw [iterOnce_some, hp]

/-- Claim C10: names are lowercased at registration and the whole input
line is lowercased before lookup, while aliases are stored verbatim; hence
an alias containing an ASCII uppercase letter can never equal the first
token of any lowercased line (the alias is unreachable), while the match
test on the command's own normalized name still succeeds and the lookup
still resolves. -/
theorem claim_C10_uppercase_alias_unreachable :
    ∀ (cmds : List Cmd) (c : Cmd) (a : Str),
      c ∈ cmds → a ∈ c.aliases →
      (∃ ch ∈ a, isUpperAscii ch = true) →
      c.name = normalizeName c.name →
      (∀ line : Str, (splitSp (pyLower line)).headD [] ≠ a) ∧
      cmdMatches c ((splitSp (pyLower c.name)).headD []) = true ∧
      (findCmd cmds ((splitSp (pyLower c.name)).headD [])).isSome = true := by
  intro cmds c a hc ha hupper hnorm
  rcases hupper with ⟨ch, hcha, hchu⟩
  have hfirst : ∀ line : Str, (splitSp (pyLower line)).headD [] ≠ a := by
    intro line heq
    have hmem : ch ∈ (splitSp (pyLower line)).headD [] := by
      rw [heq]
      exact hcha
    have hchl : ch ∈ pyLower line :=
      mem_splitSp_subset (pyLower line) _ (headD_mem_splitSp (pyLower line))
        ch hmem
    have := pyLower_no_upper line ch hchl
    rw [hchu] at this
    exact Bool.false_ne_true this.symm
  have htok : (splitSp (pyLower c.name)).headD [] = c.name := by
    rw [show pyLower c.name = c.name by
      rw [hnorm]
      exact pyLower_normalizeName c.name]
    rw [splitSp_no_space c.name (by
      rw [hnorm]
      exact normalizeName_no_space c.name)]
    rfl
  have hmatch : cmdMatches c ((splitSp (pyLower c.name)).headD []) = true := by
    rw [htok]
    simp [cmdMatches]
  refine ⟨hfirst, hmatch, ?_⟩
  rcases hfd : findCmd cmds ((splitSp (pyLower c.name)).headD []) with _ | d
  · exact absurd hmatch (by
      simpa using List.find?_eq_none.mp hfd c hc)
  · rfl

def cmdUp : Cmd := ⟨str "go", none, [], [], [str "Go!"], 3⟩

/-- Witness for claim C10: a command `go` carrying the alias `Go!`. -/
theorem claim_C10_witness :
    ((∀ line : Str, (splitSp (pyLower line)).headD [] ≠ str "Go!") ∧
     cmdMatches cmdUp ((splitSp (pyLower cmdUp.name)).headD []) = true ∧
     (findCmd [cmdUp] ((splitSp (pyLower cmdUp.name)).headD [])).isSome =
       true) :=
  claim_C10_uppercase_alias_unreachable [cmdUp] cmdUp (str "Go!")
    (by decide) (by decide) ⟨'G', by decide, by decide⟩ (by decide)

theorem helpFold_cons_ne_nil (c : Cmd) (rest : List Cmd) :
    helpFold (c :: rest) ≠ [] := by
  simp only [helpFold]
  intro h
  rcases List.append_eq_nil.mp h with ⟨_, h2⟩
  cases h2

theorem helpText_eq_joinNl :
    ∀ l : List Cmd, helpText l = joinNl (l.map renderLine) := by
  intro l
  induction l with
  | nil => rfl
  | cons c rest ih =>
    cases rest with
    | nil =>
      show (renderLine c ++ ['\n']).dropLast = renderLine c
      exact List.dropLast_concat
    | cons d rest2 =>
      show (renderLine c ++ '\n' :: helpFold (d :: rest2)).dropLast =
        renderLine c ++ '\n' :: joinNl (renderLine d :: rest2.map renderLine)
      rw [List.dropLast_append_of_ne_nil _ (by
        intro h
        cases h : helpFold (d :: rest2) with
        | nil => exact helpFold_cons_ne_nil d rest2 h
        | cons a b => simp [h] at *)]
      rw [List.dropLast_cons_of_ne_nil (helpFold_cons_ne_nil d rest2)]
      have ih2 : (helpFold (d :: rest2)).dropLast =
          joinNl (renderLine d :: rest2.map renderLine) := ih
      rw [ih2]

theorem renderLine_parts (c : Cmd) :
    infixOf (List.intercalate (str ", ") c.aliases) (renderLine c) ∧
    infixOf c.name (renderLine c) ∧
    infixOf (List.intercalate (str " ") c.args) (renderLine c) ∧
    infixOf (c.doc.getD []) (renderLine c) := by
  refine
    ⟨⟨str "Alias    ",
      str " -> " ++ c.name ++ str " " ++ List.intercalate (str " ") c.args ++
        c.doc.getD [], ?_⟩,
     ⟨str "Alias    " ++ List.intercalate (str ", ") c.aliases ++ str " -> ",
      str " " ++ List.intercalate (str " ") c.args ++ c.doc.getD [], ?_⟩,
     ⟨str "Alias    " ++ List.intercalate (str ", ") c.aliases ++ str " -> " ++
        c.name ++ str " ", c.doc.getD [], ?_⟩,
     ⟨str "Alias    " ++ List.intercalate (str ", ") c.aliases ++ str " -> " ++
        c.name ++ str " " ++ List.intercalate (str " ") c.args, [], ?_⟩⟩ <;>
    simp [renderLine, List.append_assoc]

theorem iterOnce_always_next (H : Handlers) (cfg : Config) (st : CLIState)
    (input : Option Str) :
    ∃ ef2 out, iterOnce H cfg st input =
      LoopOutcome.next ⟨sortByName st.cmd, ef2⟩ out := by
  cases input with
  | none => exact ⟨st.ef, [], rfl⟩
  | some line =>
    rcases hp : processLine H cfg (sortByName st.cmd) st.ef (pyLower line)
      with ⟨ef2, res⟩
    cases res with
    | ok effs => exact ⟨ef2, effs, by rw [iterOnce_some, hp]⟩
    | error e =>
      cases e with
      | keyboardInterrupt => exact ⟨ef2, [], by rw [iterOnce_some, hp]⟩
      | nameErrorUndefined =>
        exact ⟨ef2, [Effect.printExc PyExc.nameErrorUndefined],
          by rw [iterOnce_some, hp]⟩
      | typeErrorUnhashable =>
        exact ⟨ef2, [Effect.printExc PyExc.typeErrorUnhashable],
          by rw [iterOnce_some, hp]⟩
      | indexError =>
        exact ⟨ef2, [Effect.printExc PyExc.indexError],
          by rw [iterOnce_some, hp]⟩
      | handlerExc m =>
        exact ⟨ef2, [Effect.printExc (PyExc.handlerExc m)],
          by rw [iterOnce_some, hp]⟩

/-- Claim C7: every loop iteration re-sorts the registry by name before the
input line is read (whatever the input turns out to be, the state in which
lookup happens is `sortByName` of the previous registry, which is sorted
lexicographically by name and has the same length); consequently the help
block rendered over that registry is the newline-join of exactly one
rendered line per registered command, in name-sorted order, each line
carrying the command's aliases, name, parameter placeholders, and
description as contiguous parts. -/
theorem claim_C7_sort_and_help :
    ∀ (H : Handlers) (cfg : Config) (st : CLIState) (input : Option Str),
      (∃ ef2 out, iterOnce H cfg st input =
         LoopOutcome.next ⟨sortByName st.cmd, ef2⟩ out) ∧
      List.Sorted cmdLe (sortByName st.cmd) ∧
      (sortByName st.cmd).length = st.cmd.length ∧
      helpText (sortByName st.cmd) =
        joinNl ((sortByName st.cmd).map renderLine) ∧
      ((sortByName st.cmd).map renderLine).length = st.cmd.length ∧
      (∀ c ∈ sortByName st.cmd,
         infixOf (List.intercalate (str ", ") c.aliases) (renderLine c) ∧
         infixOf c.name (renderLine c) ∧
         infixOf (List.intercalate (str " ") c.args) (renderLine c) ∧
         infixOf (c.doc.getD []) (renderLine c)) := by
  intro H cfg st input
  refine ⟨iterOnce_always_next H cfg st input,
          List.sorted_insertionSort cmdLe st.cmd, ?_,
          helpText_eq_joinNl (sortByName st.cmd), ?_,
          fun c _ => renderLine_parts c⟩
  · exact List.length_insertionSort cmdLe st.cmd
  · rw [List.length_map]
    exact List.length_insertionSort cmdLe st.cmd

end PyCLI
